import Mathlib

namespace Pytensor

/-- A reference from an operation node to one of its inputs: either an
external graph input `ext k` or the output of an earlier node `node j`. -/
inductive Ref where
  | ext (k : Nat)
  | node (j : Nat)
deriving DecidableEq, Repr

/-- Primitive operations of the modelled graph language (stand-ins for the
excluded primitive-operation collaborator). -/
inductive Op where
  | lit (n : Int)
  | add
  | mul
  | neg
deriving DecidableEq, Repr

/-- Modelled from the spec: `pytensor.compile.function.types` and the graph
package are not in `src/`; a graph Operation node is a function from a fixed
ordered list of input Variables to an output, per spec section 3. -/
structure Node where
  op : Op
  ins : List Ref
deriving DecidableEq, Repr

instance : Inhabited Node := ⟨⟨Op.add, []⟩⟩

/-- A reference occurring in node `i` is in bounds when any `node j` it holds
points to a strictly earlier node. -/
def refBound (i : Nat) : Ref → Bool
  | .ext _ => true
  | .node j => decide (j < i)

/-- Modelled from the spec: the Graph data model (spec section 3) is not in
`src/`; a captured graph is represented as a topologically indexed node list,
well formed when every node only consumes outputs of strictly earlier nodes. -/
def wellFormedB (g : List Node) : Bool :=
  (List.range g.length).all (fun i => ((g.getD i default).ins).all (refBound i))

/-- Node `i` of `g` consumes the output of node `j`. -/
def dependsOn (g : List Node) (i j : Nat) : Prop :=
  ∃ nd, g[i]? = some nd ∧ Ref.node j ∈ nd.ins

/-- Transitive dependency between nodes of the graph. -/
def Reaches (g : List Node) : Nat → Nat → Prop :=
  Relation.TransGen (dependsOn g)

/-- A graph is acyclic when no node transitively depends on itself. -/
def Acyclic (g : List Node) : Prop := ∀ i, ¬ Reaches g i i

/-- Modelled from the spec: the rewrite engine (`optdb` application machinery,
not in `src/`) tries a rewrite on a clone and rolls it back unless the graph
invariants hold after it (spec sections 4.1 and 3). -/
def apply_rewrite (g : List Node) (r : List Node → Option (List Node)) : List Node :=
  match r g with
  | some g2 => if wellFormedB g2 then g2 else g
  | none => g

/-- Modelled from the spec: a sequence of rewrite-stage applications is the
left fold of `apply_rewrite` over the stage list. -/
def apply_stages (g : List Node) (rs : List (List Node → Option (List Node))) : List Node :=
  rs.foldl apply_rewrite g

/-- A sample well-formed graph used to instantiate universally quantified
theorems: a single node adding external input 0 to itself. -/
def gEx : List Node := [⟨Op.add, [Ref.ext 0, Ref.ext 0]⟩]

/-- The identity rewrite: always matches and returns the graph unchanged. -/
def rw_id : List Node → Option (List Node) := fun g => some g

/-- Maps a node reference through the index remapping built by the merge
pass; external inputs are untouched, a node index is sent to the canonical
index recorded for it. -/
def remap_ref (remap : List Nat) : Ref → Ref
  | .ext k => .ext k
  | .node j => .node (remap.getD j j)

/-- Index of the first node in `emitted` structurally identical to `cand`,
if any. -/
def find_dup_idx (emitted : List Node) (cand : Node) : Option Nat :=
  match emitted with
  | [] => none
  | m :: rest => if m = cand then some 0 else (find_dup_idx rest cand).map (fun k => k + 1)

/-- Modelled from the spec: the merge stage (`OPT_MERGE` of
`pytensor.compile.mode`, whose module is not in `src/`) deduplicates
structurally identical subgraphs — same operation, same inputs — into one,
rewriting all consumers to point at the surviving node (spec section 4.3).
Nodes are processed in order; each node's inputs are first rewritten through
the remapping, and the node is emitted only when no structurally identical
node has been emitted already. -/
def merge_go : List Node → List Node → List Nat → List Node
  | [], emitted, _ => emitted
  | nd :: rest, emitted, remap =>
    match find_dup_idx emitted ⟨nd.op, nd.ins.map (remap_ref remap)⟩ with
    | some k => merge_go rest emitted (remap ++ [k])
    | none =>
      merge_go rest (emitted ++ [⟨nd.op, nd.ins.map (remap_ref remap)⟩]) (remap ++ [emitted.length])

/-- Modelled from the spec: one run of the merge stage over a captured
graph. -/
def merge_stage (g : List Node) : List Node := merge_go g [] []

/-- Looks up the variable that `v` is a view of, if any, in the list of
view edges `(output, viewed input)` declared by view-producing operations. -/
def lookup_view (views : List (Nat × Nat)) (v : Nat) : Option Nat :=
  (views.find? (fun p => p.1 == v)).map (fun p => p.2)

/-- Fuelled walk from a variable up its chain of view edges. -/
def alias_root_go (views : List (Nat × Nat)) : Nat → Nat → Nat
  | 0, v => v
  | fuel + 1, v =>
    match lookup_view views v with
    | some w => alias_root_go views fuel w
    | none => v

/-- Modelled from the spec: `alias_root` of `pytensor.compile.function.types`
(module not in `src/`) returns the storage root of a variable by following
view edges to a variable that is not a view of anything (spec section 4.2). -/
def alias_root (views : List (Nat × Nat)) (v : Nat) : Nat :=
  alias_root_go views (views.length + 1) v

/-- Modelled from the spec: `view_tree_set` of
`pytensor.compile.function.types` (module not in `src/`) computes the
transitive alias set of `v` — all variables sharing underlying storage with
`v` via view-producing operations (spec section 4.2). -/
def view_tree_set (vars : List Nat) (views : List (Nat × Nat)) (v : Nat) : List Nat :=
  vars.filter (fun u => alias_root views u == alias_root views v)

/-- Modelled from the spec: the aliasing analysis of the missing
`pytensor.compile.function.types` module judges a destructive write on `v`
legal by checking the transitive alias set of `v` for members other than `v`
still required by a not-yet-executed consumer (`req`), and checking that `v`
is not Supervisor-protected (`prot`); spec section 4.2. -/
def destroy_legal (vars : List Nat) (views : List (Nat × Nat))
    (req prot : Nat → Bool) (v : Nat) : Bool :=
  ((view_tree_set vars views v).filter (fun u => decide (u ≠ v) && req u)).isEmpty && ! prot v

/-- Errors surfaced by the modelled compilation pipeline. -/
inductive CompileError where
  | aliasedMemoryError
  | unusedInputError
deriving DecidableEq, Repr

/-- Modelled from the spec: the validation pass that runs the aliasing
analysis over every requested destructive write and raises
`AliasedMemoryError` (never silently works around it) when any write is
illegal; spec sections 4.2 and 7. The error class itself is re-exported by
`src/pytensor/compile/__init__.py` but defined in a module not in `src/`. -/
def validate_destructive (vars : List Nat) (views : List (Nat × Nat))
    (req prot : Nat → Bool) (writes : List Nat) : Except CompileError Unit :=
  match writes.find? (fun v => ! destroy_legal vars views req prot v) with
  | some _ => .error .aliasedMemoryError
  | none => .ok ()

/-- Modelled from the spec: the compilation step runs destructive-write
validation and only then proceeds to linking; any validation error
propagates unchanged to the caller of the compilation step (spec section 7:
none are swallowed internally). -/
def compile_step (vars : List Nat) (views : List (Nat × Nat))
    (req prot : Nat → Bool) (writes : List Nat)
    (link : Unit → List Node) : Except CompileError (List Node) :=
  (validate_destructive vars views req prot writes).bind (fun _ => .ok (link ()))

/-- Aliasing facts recorded for one declared output of the compiled
function. -/
structure OutSpec where
  aliasesInput : Bool
  borrowOk : Bool
  aliasesShared : Bool
deriving DecidableEq, Repr

instance : Inhabited OutSpec := ⟨⟨false, false, false⟩⟩

/-- An output position of the final graph: either returned directly or
guarded by an inserted `DeepCopyOp` node. -/
inductive PlannedOut where
  | direct (o : OutSpec)
  | deepCopied (o : OutSpec)
deriving DecidableEq, Repr

/-- An output must be copy-protected when it aliases a shared value's
persistent storage, or when it aliases a declared input that was not marked
borrow-on-output-ok. -/
def needs_copy (o : OutSpec) : Bool :=
  o.aliasesShared || (o.aliasesInput && ! o.borrowOk)

/-- Modelled from the spec: `insert_deepcopy` of
`pytensor.compile.function.types` (module not in `src/`) inserts a
`DeepCopyOp` node before every output that would otherwise expose mutable
aliased storage (spec section 4.4). -/
def insert_deepcopy (outs : List OutSpec) : List PlannedOut :=
  outs.map (fun o => if needs_copy o then .deepCopied o else .direct o)

/-- Denotation of a primitive operation on its argument values. -/
def denote : Op → List Int → Int
  | .lit n, _ => n
  | .add, vs => vs.getD 0 0 + vs.getD 1 0
  | .mul, vs => vs.getD 0 0 * vs.getD 1 0
  | .neg, vs => - vs.getD 0 0

/-- Value of one node input: an external input is read from the environment,
a node reference is read from the already-computed value list. -/
def evalRef (env : Nat → Int) (vals : List Int) : Ref → Int
  | .ext k => env k
  | .node j => vals.getD j 0

/-- Modelled from the spec: evaluation of a captured graph on an input
environment, producing one value per node in topological order (the graph
semantics that rewrites must preserve, spec section 8). -/
def eval_graph (env : Nat → Int) (g : List Node) : List Int :=
  g.foldl (fun vals nd => vals ++ [denote nd.op (nd.ins.map (evalRef env vals))]) []

/-- Modelled from the spec: a Mode (of `pytensor.compile.mode`, module not in
`src/`) bundles a rewrite-selection configuration with a declared numerical
tolerance relation on result values (spec sections 4.5 and 8). -/
structure Mode where
  tol : Int → Int → Bool

/-- The strict mode tolerance: exact equality on non-floating values. -/
def mode_exact : Mode := ⟨fun a b => decide (a = b)⟩

/-- The trivial declared domain containing every environment. -/
def dom_all : (Nat → Int) → Prop := fun _ => True

/-- Two graphs are semantically equivalent up to a Mode's tolerance on a
declared domain when, for every environment in the domain, corresponding
node values are related by the tolerance. -/
def sem_equiv_upto (m : Mode) (dom : (Nat → Int) → Prop) (g g2 : List Node) : Prop :=
  ∀ env, dom env → ∀ o : Nat,
    m.tol ((eval_graph env g).getD o 0) ((eval_graph env g2).getD o 0) = true

/-- Expressions readable by shared-value update rules and declared
outputs. -/
inductive SExpr where
  | lit (n : Int)
  | readShared (v : Nat)
  | readInput (k : Nat)
  | add (a b : SExpr)
  | mul (a b : SExpr)
deriving DecidableEq, Repr

/-- Evaluates an expression against a shared-value state and a per-call
input environment. -/
def seval (sh inp : Nat → Int) : SExpr → Int
  | .lit n => n
  | .readShared v => sh v
  | .readInput k => inp k
  | .add a b => seval sh inp a + seval sh inp b
  | .mul a b => seval sh inp a * seval sh inp b

/-- A compiled function's shared-update and output plan: each update pairs a
shared variable with the expression computed for it every call. -/
structure CallSpec where
  updates : List (Nat × SExpr)
  outputs : List SExpr

/-- Writes a list of computed new values into the shared-value state, in
order. -/
def commit (st : Nat → Int) (news : List (Nat × Int)) : Nat → Int :=
  news.foldl (fun s p => fun u => if u = p.1 then p.2 else s u) st

/-- Modelled from the spec: one call of the compiled function
(`fgraph_updated_vars` and `SharedVariable` live in modules not in `src/`).
All update expressions and all outputs are computed from the pre-call
shared-value state, and only then are the new values committed — the
simultaneous-update rule of spec section 4.6. -/
def run_call (c : CallSpec) (sh inp : Nat → Int) : (Nat → Int) × List Int :=
  (commit sh (c.updates.map (fun p => (p.1, seval sh inp p.2))),
   c.outputs.map (seval sh inp))

/-- A concrete call plan whose two shared values swap each other: update of 0
reads 1 and update of 1 reads 0, a case where sequential updating would
differ from simultaneous updating. -/
def call_ex : CallSpec := ⟨[(0, .readShared 1), (1, .readShared 0)], [.readShared 0]⟩

/-- A concrete pre-call shared-value state. -/
def sh_ex : Nat → Int := fun v => if v = 0 then 10 else 20

/-- A concrete per-call input environment. -/
def inp_ex : Nat → Int := fun _ => 0

/-- Liveness facts recorded for one input of an Operation node. -/
structure InputInfo where
  var : Nat
  uniquelyOwned : Bool
  aliveBeyond : Bool
deriving DecidableEq, Repr

/-- An input's storage is safe to overwrite when it is uniquely owned by this
execution and not alive beyond this node. -/
def safe_to_overwrite (i : InputInfo) : Bool := i.uniquelyOwned && ! i.aliveBeyond

/-- Modelled from the spec: `infer_reuse_pattern` of
`pytensor.compile.function.types` (module not in `src/`) returns, from the
current liveness of a node's inputs, the subset of inputs whose storage is
safe to overwrite for that node's output (spec section 4.4). -/
def infer_reuse_pattern (ins : List InputInfo) : List Nat :=
  (ins.filter safe_to_overwrite).map InputInfo.var

/-- Modelled from the spec: the destructive-op-enabling rewrite stage enables
an in-place operation only on inputs that `infer_reuse_pattern` has marked
safe — enabling is driven by proven-safe reuse, never the reverse (spec
section 4.4). -/
def enable_inplace (ins : List InputInfo) (requested : List Nat) : List Nat :=
  requested.filter (fun v => decide (v ∈ infer_reuse_pattern ins))

/-- Indices of earlier nodes consumed by a node. -/
def node_refs (nd : Node) : List Nat :=
  nd.ins.filterMap (fun r => match r with | .node j => some j | .ext _ => none)

/-- External input ids read directly by a node. -/
def ext_refs (nd : Node) : List Nat :=
  nd.ins.filterMap (fun r => match r with | .ext k => some k | .node _ => none)

/-- Modelled from the spec: the node indices reachable backward from the
declared outputs, computed by one sweep from the highest index down (valid
because every node only consumes strictly earlier nodes). -/
def reachable_nodes (g : List Node) (outs : List Nat) : List Nat :=
  (List.range g.length).reverse.foldl
    (fun marked i => if i ∈ marked then marked ++ node_refs (g.getD i default) else marked)
    outs

/-- Modelled from the spec: the external inputs actually read by the part of
the graph reachable from the declared outputs. -/
def used_ext_inputs (g : List Node) (outs : List Nat) : List Nat :=
  ((reachable_nodes g outs).map (fun i => ext_refs (g.getD i default))).flatten

/-- How the caller asked the compiler to treat declared-but-unreachable
inputs: hard error or warning. -/
inductive UnusedInputPolicy where
  | hardError
  | warnOnly
deriving DecidableEq, Repr

/-- The compiled artifact returned on success. -/
structure CompiledFunction where
  graph : List Node
  inputs : List Nat
  outputs : List Nat
deriving DecidableEq, Repr

/-- Modelled from the spec: the compile-time unused-input check of the
function-building code (`UnusedInputError` is re-exported by
`src/pytensor/compile/__init__.py` but defined in a module not in `src/`).
Unreachable declared inputs are detected while compiling — never deferred to
call time — and are a hard error or a warning depending on the caller's
policy (spec sections 6 and 7). -/
def compile_function (g : List Node) (ins outs : List Nat) (pol : UnusedInputPolicy) :
    Except CompileError (CompiledFunction × List (List Nat)) :=
  if (ins.filter (fun d => decide (d ∉ used_ext_inputs g outs))).isEmpty then
    .ok (⟨g, ins, outs⟩, [])
  else
    match pol with
    | .hardError => .error .unusedInputError
    | .warnOnly => .ok (⟨g, ins, outs⟩, [ins.filter (fun d => decide (d ∉ used_ext_inputs g outs))])

/-- Names bound at the top level of `pytensor.compile` by its package
initializer, as pairs of defining submodule and exported name; transcribed
from `src/pytensor/compile/__init__.py`. -/
def compile_init_imports : List (String × String) := [
  ("pytensor.compile.function.pfunc", "pfunc"),
  ("pytensor.compile.function.pfunc", "rebuild_collect_shared"),
  ("pytensor.compile.function.types", "AliasedMemoryError"),
  ("pytensor.compile.function.types", "Function"),
  ("pytensor.compile.function.types", "FunctionMaker"),
  ("pytensor.compile.function.types", "Supervisor"),
  ("pytensor.compile.function.types", "UnusedInputError"),
  ("pytensor.compile.function.types", "alias_root"),
  ("pytensor.compile.function.types", "convert_function_input"),
  ("pytensor.compile.function.types", "fgraph_updated_vars"),
  ("pytensor.compile.function.types", "get_info_on_inputs"),
  ("pytensor.compile.function.types", "infer_reuse_pattern"),
  ("pytensor.compile.function.types", "insert_deepcopy"),
  ("pytensor.compile.function.types", "orig_function"),
  ("pytensor.compile.function.types", "std_fgraph"),
  ("pytensor.compile.function.types", "view_tree_set"),
  ("pytensor.compile.io", "In"),
  ("pytensor.compile.io", "Out"),
  ("pytensor.compile.io", "SymbolicInput"),
  ("pytensor.compile.io", "SymbolicOutput"),
  ("pytensor.compile.mode", "FAST_COMPILE"),
  ("pytensor.compile.mode", "FAST_RUN"),
  ("pytensor.compile.mode", "JAX"),
  ("pytensor.compile.mode", "NUMBA"),
  ("pytensor.compile.mode", "OPT_FAST_COMPILE"),
  ("pytensor.compile.mode", "OPT_FAST_RUN"),
  ("pytensor.compile.mode", "OPT_FAST_RUN_STABLE"),
  ("pytensor.compile.mode", "OPT_MERGE"),
  ("pytensor.compile.mode", "OPT_NONE"),
  ("pytensor.compile.mode", "OPT_O2"),
  ("pytensor.compile.mode", "OPT_O3"),
  ("pytensor.compile.mode", "OPT_STABILIZE"),
  ("pytensor.compile.mode", "OPT_UNSAFE"),
  ("pytensor.compile.mode", "PYTORCH"),
  ("pytensor.compile.mode", "AddDestroyHandler"),
  ("pytensor.compile.mode", "AddFeatureOptimizer"),
  ("pytensor.compile.mode", "Mode"),
  ("pytensor.compile.mode", "PrintCurrentFunctionGraph"),
  ("pytensor.compile.mode", "get_default_mode"),
  ("pytensor.compile.mode", "get_mode"),
  ("pytensor.compile.mode", "local_useless"),
  ("pytensor.compile.mode", "optdb"),
  ("pytensor.compile.mode", "predefined_linkers"),
  ("pytensor.compile.mode", "predefined_modes"),
  ("pytensor.compile.mode", "predefined_optimizers"),
  ("pytensor.compile.mode", "register_linker"),
  ("pytensor.compile.mode", "register_mode"),
  ("pytensor.compile.mode", "register_optimizer"),
  ("pytensor.compile.monitormode", "MonitorMode"),
  ("pytensor.compile.ops", "DeepCopyOp"),
  ("pytensor.compile.ops", "FromFunctionOp"),
  ("pytensor.compile.ops", "ViewOp"),
  ("pytensor.compile.ops", "as_op"),
  ("pytensor.compile.ops", "deep_copy_op"),
  ("pytensor.compile.ops", "register_deep_copy_op_c_code"),
  ("pytensor.compile.ops", "register_view_op_c_code"),
  ("pytensor.compile.ops", "view_op"),
  ("pytensor.compile.profiling", "ProfileStats"),
  ("pytensor.compile.sharedvalue", "SharedVariable"),
  ("pytensor.compile.sharedvalue", "shared"),
  ("pytensor.compile.sharedvalue", "shared_constructor")]

/-- The exported names of `pytensor.compile`, in binding order. -/
def compile_exports : List String :=
  compile_init_imports.map (fun p => p.2)

/-- The public names claim C10 requires to be bound at the top level of
`pytensor.compile`. -/
def c10_required_names : List String := [
  "AliasedMemoryError", "Function", "FunctionMaker", "Supervisor",
  "UnusedInputError", "infer_reuse_pattern", "insert_deepcopy", "In", "Out",
  "Mode", "get_mode", "optdb", "predefined_modes", "predefined_linkers",
  "predefined_optimizers", "register_mode", "register_linker",
  "register_optimizer", "MonitorMode", "DeepCopyOp", "ViewOp",
  "ProfileStats", "SharedVariable", "shared"]

lemma dependsOn_lt {g : List Node} (hwf : wellFormedB g = true) {i j : Nat}
    (h : dependsOn g i j) : j < i := by
  obtain ⟨nd, hnd, hmem⟩ := h
  have hi : i < g.length := by
    by_contra hge
    rw [List.getElem?_eq_none (Nat.le_of_not_lt hge)] at hnd
    exact Option.noConfusion hnd
  have hall := List.all_eq_true.mp hwf i (List.mem_range.mpr hi)
  have hgetD : g.getD i default = nd := by
    simp [List.getD, hnd]
  rw [hgetD] at hall
  have := List.all_eq_true.mp hall (Ref.node j) hmem
  simpa [refBound] using this

lemma reaches_lt {g : List Node} (hwf : wellFormedB g = true) {i j : Nat}
    (h : Reaches g i j) : j < i := by
  induction h with
  | single h1 => exact dependsOn_lt hwf h1
  | tail _ h2 ih => exact Nat.lt_trans (dependsOn_lt hwf h2) ih

lemma wellFormed_acyclic {g : List Node} (hwf : wellFormedB g = true) : Acyclic g := by
  intro i hcyc
  exact Nat.lt_irrefl i (reaches_lt hwf hcyc)

lemma apply_rewrite_wf {g : List Node} (r : List Node → Option (List Node))
    (h : wellFormedB g = true) : wellFormedB (apply_rewrite g r) = true := by
  unfold apply_rewrite
  cases r g with
  | none => exact h
  | some g2 =>
    by_cases h2 : wellFormedB g2 = true
    · simp [h2]
    · simp [h2, h]

lemma apply_stages_wf (rs : List (List Node → Option (List Node))) {g : List Node}
    (h : wellFormedB g = true) : wellFormedB (apply_stages g rs) = true := by
  induction rs generalizing g with
  | nil => exact h
  | cons r rest ih => exact ih (apply_rewrite_wf r h)

/-- C5: every graph produced by applying any sequence of rewrite-stage
applications to a well-formed captured graph is acyclic. -/
theorem rewrite_pipeline_preserves_acyclicity
    (rs : List (List Node → Option (List Node))) (g : List Node)
    (hwf : wellFormedB g = true) : Acyclic (apply_stages g rs) :=
  wellFormed_acyclic (apply_stages_wf rs hwf)

/-- Witness for C5 at a concrete graph and a concrete rewrite sequence. -/
theorem rewrite_pipeline_preserves_acyclicity_witness :
    wellFormedB gEx = true ∧ Acyclic (apply_stages gEx [rw_id]) :=
  ⟨by decide, rewrite_pipeline_preserves_acyclicity [rw_id] gEx (by decide)⟩

lemma find_dup_idx_eq_none_iff (e : List Node) (c : Node) :
    find_dup_idx e c = none ↔ c ∉ e := by
  induction e with
  | nil => simp [find_dup_idx]
  | cons m rest ih =>
    by_cases h : m = c
    · simp [find_dup_idx, h]
    · simp only [find_dup_idx, if_neg h, Option.map_eq_none', ih, List.mem_cons]
      constructor
      · intro hnot hor
        rcases hor with h1 | h2
        · exact h h1.symm
        · exact hnot h2
      · intro hnot hmem
        exact hnot (Or.inr hmem)

lemma merge_go_nodup (g : List Node) :
    ∀ (e : List Node) (remap : List Nat), e.Nodup → (merge_go g e remap).Nodup := by
  induction g with
  | nil =>
    intro e remap he
    simpa [merge_go] using he
  | cons nd rest ih =>
    intro e remap he
    simp only [merge_go]
    cases hfind : find_dup_idx e ⟨nd.op, nd.ins.map (remap_ref remap)⟩ with
    | some k => exact ih e (remap ++ [k]) he
    | none =>
      apply ih
      have hnm : (⟨nd.op, nd.ins.map (remap_ref remap)⟩ : Node) ∉ e :=
        (find_dup_idx_eq_none_iff e _).mp hfind
      simp only [List.nodup_append, List.nodup_cons, List.nodup_nil]
      exact ⟨he, ⟨by simp, by simp⟩, by
        intro a ha
        simp only [List.mem_singleton]
        intro hac
        exact hnm (hac ▸ ha)⟩

lemma remap_ref_range (n : Nat) (r : Ref) : remap_ref (List.range n) r = r := by
  cases r with
  | ext k => rfl
  | node j =>
    simp only [remap_ref, Ref.node.injEq]
    by_cases h : j < n
    · simp [List.getD, List.getElem?_range, h]
    · rw [List.getD_eq_default]
      simpa using Nat.le_of_not_lt h

lemma merge_go_of_nodup (g : List Node) :
    ∀ (e : List Node), (e ++ g).Nodup → merge_go g e (List.range e.length) = e ++ g := by
  induction g with
  | nil =>
    intro e h
    simp [merge_go]
  | cons nd rest ih =>
    intro e h
    have hcand : (⟨nd.op, nd.ins.map (remap_ref (List.range e.length))⟩ : Node) = nd := by
      cases nd with
      | mk op ins =>
        simp only [Node.mk.injEq, true_and]
        exact List.map_congr_left (fun r _ => remap_ref_range e.length r) |>.trans (List.map_id ins)
    have hnotmem : nd ∉ e := by
      intro hmem
      have hdisj := (List.nodup_append.mp h).2.2
      exact hdisj hmem (List.mem_cons_self nd rest)
    simp only [merge_go, hcand, (find_dup_idx_eq_none_iff e nd).mpr hnotmem]
    have hrange : List.range e.length ++ [e.length] = List.range (e ++ [nd]).length := by
      simp [List.range_succ]
    rw [hrange]
    have h2 : ((e ++ [nd]) ++ rest).Nodup := by simpa using h
    have := ih (e ++ [nd]) h2
    simpa using this

/-- C2: the aliasing analysis judges a destructive write on `v` legal iff no
member of `v`'s transitive alias set other than `v` itself is still required
by a not-yet-executed consumer, and `v` is not in the protected
(Supervisor-registered) set. -/
theorem destroy_legal_iff (vars : List Nat) (views : List (Nat × Nat))
    (req prot : Nat → Bool) (v : Nat) :
    destroy_legal vars views req prot v = true ↔
      ((∀ u ∈ view_tree_set vars views v, u ≠ v → req u = false) ∧ prot v = false) := by
  simp only [destroy_legal, Bool.and_eq_true, List.isEmpty_iff, List.filter_eq_nil_iff,
    Bool.not_eq_true', decide_eq_true_eq, not_and, Bool.not_eq_true]

/-- C3: whenever a requested destructive write targets a variable the
aliasing analysis judges illegal (live alias or protected), the compilation
step returns `AliasedMemoryError` to its caller; it is never recovered
internally. -/
theorem aliased_memory_error_propagates
    (vars : List Nat) (views : List (Nat × Nat)) (req prot : Nat → Bool)
    (writes : List Nat) (link : Unit → List Node) (v : Nat)
    (hmem : v ∈ writes) (hbad : destroy_legal vars views req prot v = false) :
    compile_step vars views req prot writes link = .error .aliasedMemoryError := by
  have hne : writes.find? (fun u => ! destroy_legal vars views req prot u) ≠ none := by
    intro hnone
    have h2 := List.find?_eq_none.mp hnone v hmem
    simp [hbad] at h2
  cases hfind : writes.find? (fun u => ! destroy_legal vars views req prot u) with
  | none => exact absurd hfind hne
  | some w => simp [compile_step, validate_destructive, hfind, Except.bind]

/-- Witness for C3: variable 1 is a view of variable 0 and still required,
so the requested destructive write on 0 makes the whole compilation step
return `AliasedMemoryError`. -/
theorem aliased_memory_error_propagates_witness :
    (0 ∈ [0] ∧ destroy_legal [0, 1] [(1, 0)] (fun u => decide (u = 1)) (fun _ => false) 0 = false) ∧
      compile_step [0, 1] [(1, 0)] (fun u => decide (u = 1)) (fun _ => false) [0] (fun _ => []) =
        .error .aliasedMemoryError :=
  ⟨⟨by decide, by decide⟩,
    aliased_memory_error_propagates [0, 1] [(1, 0)] (fun u => decide (u = 1)) (fun _ => false)
      [0] (fun _ => []) 0 (by decide) (by decide)⟩

/-- C4: in the compiled function's final graph, every output aliasing a
declared input has a deep-copy node inserted unless that input is marked
borrow-on-output-ok, and every output aliasing shared storage has one
inserted unconditionally. -/
theorem insert_deepcopy_protects (outs : List OutSpec) (i : Nat) (o : OutSpec)
    (hget : outs[i]? = some o)
    (hneed : o.aliasesShared = true ∨ (o.aliasesInput = true ∧ o.borrowOk = false)) :
    (insert_deepcopy outs)[i]? = some (.deepCopied o) := by
  unfold insert_deepcopy
  rw [List.getElem?_map, hget]
  have hcopy : needs_copy o = true := by
    rcases hneed with h | ⟨h1, h2⟩
    · simp [needs_copy, h]
    · simp [needs_copy, h1, h2]
  simp [hcopy]

/-- Witness for C4 on a one-output graph whose output aliases a
non-borrowable declared input. -/
theorem insert_deepcopy_protects_witness :
    (insert_deepcopy [⟨true, false, false⟩])[0]? =
      some (.deepCopied ⟨true, false, false⟩) :=
  insert_deepcopy_protects [⟨true, false, false⟩] 0 ⟨true, false, false⟩ (by decide)
    (by decide)

/-- C8: running the merge stage twice in succession yields the same graph as
running it once; the second application produces no further change. -/
theorem merge_stage_idempotent (g : List Node) :
    merge_stage (merge_stage g) = merge_stage g := by
  have h1 : (merge_stage g).Nodup := merge_go_nodup g [] [] List.nodup_nil
  have h2 := merge_go_of_nodup (merge_stage g) [] (by simpa using h1)
  simpa [merge_stage] using h2

lemma sem_equiv_upto_refl {m : Mode} {dom : (Nat → Int) → Prop}
    (hrefl : ∀ a : Int, m.tol a a = true) (g : List Node) :
    sem_equiv_upto m dom g g := by
  intro env _ o
  exact hrefl _

lemma sem_equiv_upto_trans {m : Mode} {dom : (Nat → Int) → Prop}
    (htrans : ∀ a b c2 : Int, m.tol a b = true → m.tol b c2 = true → m.tol a c2 = true)
    {g1 g2 g3 : List Node}
    (h12 : sem_equiv_upto m dom g1 g2) (h23 : sem_equiv_upto m dom g2 g3) :
    sem_equiv_upto m dom g1 g3 := by
  intro env henv o
  exact htrans _ _ _ (h12 env henv o) (h23 env henv o)

lemma sem_equiv_upto_stages {m : Mode} {dom : (Nat → Int) → Prop}
    (hrefl : ∀ a : Int, m.tol a a = true)
    (htrans : ∀ a b c2 : Int, m.tol a b = true → m.tol b c2 = true → m.tol a c2 = true)
    (rs : List (List Node → Option (List Node)))
    (hpres : ∀ r ∈ rs, ∀ g0 : List Node, sem_equiv_upto m dom g0 (apply_rewrite g0 r)) :
    ∀ g : List Node, sem_equiv_upto m dom g (apply_stages g rs) := by
  induction rs with
  | nil => exact fun g => sem_equiv_upto_refl hrefl g
  | cons r rest ih =>
    intro g
    have hstep : sem_equiv_upto m dom g (apply_rewrite g r) :=
      hpres r (List.mem_cons_self r rest) g
    have htail : sem_equiv_upto m dom (apply_rewrite g r) (apply_stages (apply_rewrite g r) rest) :=
      ih (fun r2 hr2 => hpres r2 (List.mem_cons_of_mem r hr2)) (apply_rewrite g r)
    exact sem_equiv_upto_trans htrans hstep htail

/-- C1: for every input in the declared domain, the unoptimized captured
graph and the graph fully rewritten by any pipeline of tolerance-preserving
rewrites evaluate equal within the active Mode's tolerance; under a stricter
mode whose tolerance implies equality on these non-floating values, the
results are exactly equal. -/
theorem optimized_graph_matches_within_tolerance
    (m : Mode) (dom : (Nat → Int) → Prop) (rs : List (List Node → Option (List Node)))
    (g : List Node)
    (hrefl : ∀ a : Int, m.tol a a = true)
    (htrans : ∀ a b c2 : Int, m.tol a b = true → m.tol b c2 = true → m.tol a c2 = true)
    (hpres : ∀ r ∈ rs, ∀ g0 : List Node, sem_equiv_upto m dom g0 (apply_rewrite g0 r)) :
    sem_equiv_upto m dom g (apply_stages g rs) ∧
      ((∀ a b : Int, m.tol a b = true → a = b) →
        ∀ env, dom env → ∀ o : Nat,
          (eval_graph env g).getD o 0 = (eval_graph env (apply_stages g rs)).getD o 0) := by
  have hmain := sem_equiv_upto_stages hrefl htrans rs hpres g
  exact ⟨hmain, fun hstrict env henv o => hstrict _ _ (hmain env henv o)⟩

/-- Witness for C1: the exact-equality mode, the identity rewrite and a
concrete graph and environment. -/
theorem optimized_graph_matches_within_tolerance_witness :
    mode_exact.tol ((eval_graph (fun _ => 3) gEx).getD 0 0)
      ((eval_graph (fun _ => 3) (apply_stages gEx [rw_id])).getD 0 0) = true :=
  (optimized_graph_matches_within_tolerance mode_exact dom_all [rw_id] gEx
    (fun a => by simp [mode_exact])
    (fun a b c2 h1 h2 => by
      simp only [mode_exact, decide_eq_true_eq] at h1 h2 ⊢
      omega)
    (fun r hr g0 => by
      rcases List.mem_singleton.mp hr with rfl
      intro env henv o
      simp [apply_rewrite, rw_id, mode_exact])).1 (fun _ => 3) trivial 0

lemma commit_not_mem (news : List (Nat × Int)) (st : Nat → Int) (B : Nat)
    (h : B ∉ news.map Prod.fst) : commit st news B = st B := by
  induction news generalizing st with
  | nil => rfl
  | cons p rest ih =>
    simp only [List.map_cons, List.mem_cons, not_or] at h
    have heq : commit st (p :: rest) = commit (fun u => if u = p.1 then p.2 else st u) rest := rfl
    rw [heq, ih _ h.2]
    simp [h.1]

lemma commit_lookup (news : List (Nat × Int)) (st : Nat → Int) (B : Nat) (x : Int)
    (hnd : (news.map Prod.fst).Nodup) (hmem : (B, x) ∈ news) :
    commit st news B = x := by
  induction news generalizing st with
  | nil => cases hmem
  | cons p rest ih =>
    simp only [List.map_cons, List.nodup_cons] at hnd
    have heq : commit st (p :: rest) = commit (fun u => if u = p.1 then p.2 else st u) rest := rfl
    rcases List.mem_cons.mp hmem with h1 | h2
    · rw [heq, commit_not_mem]
      · simp [← h1]
      · rw [← h1] at hnd
        exact hnd.1
    · rw [heq]
      exact ih _ hnd.2 h2

/-- C6: a call commits, for every shared value B with an update expression,
the value of that expression evaluated in the pre-call shared state, and
every output is likewise evaluated in the pre-call state — an expression
reading shared value A sees A's pre-call value, never the value updated
within the same call; moreover any back-end ordering (any permutation) of
the computed update writes commits the same value for B. -/
theorem shared_update_simultaneity (c : CallSpec) (sh inp : Nat → Int) (B : Nat) (eB : SExpr)
    (hnd : (c.updates.map Prod.fst).Nodup) (hmem : (B, eB) ∈ c.updates) :
    (run_call c sh inp).1 B = seval sh inp eB ∧
      (run_call c sh inp).2 = c.outputs.map (seval sh inp) ∧
      (∀ A : Nat, seval sh inp (SExpr.readShared A) = sh A) ∧
      (∀ sched : List (Nat × Int),
        sched.Perm (c.updates.map (fun p => (p.1, seval sh inp p.2))) →
        commit sh sched B = seval sh inp eB) := by
  have hkeys : (c.updates.map (fun p => (p.1, seval sh inp p.2))).map Prod.fst =
      c.updates.map Prod.fst := by
    rw [List.map_map]
    rfl
  have hmem2 : (B, seval sh inp eB) ∈ c.updates.map (fun p => (p.1, seval sh inp p.2)) :=
    List.mem_map.mpr ⟨(B, eB), hmem, rfl⟩
  refine ⟨?_, rfl, fun A => rfl, ?_⟩
  · exact commit_lookup _ sh B _ (by rw [hkeys]; exact hnd) hmem2
  · intro sched hperm
    have hnd2 : (sched.map Prod.fst).Nodup := by
      refine ((hperm.map Prod.fst).nodup_iff).mpr ?_
      rw [hkeys]
      exact hnd
    exact commit_lookup sched sh B _ hnd2 (hperm.mem_iff.mpr hmem2)

/-- Witness for C6: two shared values whose updates read each other; the
committed value of shared value 0 is the pre-call value of shared value 1,
and the output reading shared value 0 sees its pre-call value. -/
theorem shared_update_simultaneity_witness :
    (run_call call_ex sh_ex inp_ex).1 0 = seval sh_ex inp_ex (SExpr.readShared 1) ∧
      (run_call call_ex sh_ex inp_ex).2 = call_ex.outputs.map (seval sh_ex inp_ex) :=
  ⟨(shared_update_simultaneity call_ex sh_ex inp_ex 0 (.readShared 1)
      (by decide) (by decide)).1,
    (shared_update_simultaneity call_ex sh_ex inp_ex 0 (.readShared 1)
      (by decide) (by decide)).2.1⟩

/-- C7: `infer_reuse_pattern` returns exactly the inputs whose storage is
uniquely owned by this execution and not alive beyond this node, and the
destructive-op-enabling stage enables an in-place operation only on inputs
so marked (and only when requested). -/
theorem infer_reuse_pattern_spec (ins : List InputInfo) (requested : List Nat) (v : Nat) :
    (v ∈ infer_reuse_pattern ins ↔
      ∃ i ∈ ins, i.var = v ∧ i.uniquelyOwned = true ∧ i.aliveBeyond = false) ∧
      (v ∈ enable_inplace ins requested → v ∈ infer_reuse_pattern ins ∧ v ∈ requested) := by
  constructor
  · simp only [infer_reuse_pattern, List.mem_map, List.mem_filter, safe_to_overwrite,
      Bool.and_eq_true, Bool.not_eq_true']
    constructor
    · rintro ⟨i, ⟨h1, h2, h3⟩, h4⟩
      exact ⟨i, h1, h4, h2, h3⟩
    · rintro ⟨i, h1, h4, h2, h3⟩
      exact ⟨i, ⟨h1, h2, h3⟩, h4⟩
  · intro hmem
    have h := List.mem_filter.mp hmem
    exact ⟨of_decide_eq_true h.2, h.1⟩

/-- Witness for C7: a uniquely owned, not-alive-beyond input requested for
in-place reuse is enabled and is in the reuse pattern. -/
theorem infer_reuse_pattern_spec_witness :
    5 ∈ infer_reuse_pattern [⟨5, true, false⟩] ∧ 5 ∈ [5] :=
  (infer_reuse_pattern_spec [⟨5, true, false⟩] [5] 5).2 (by decide)

/-- C9: compiling with a declared input unreachable from the declared
outputs raises `UnusedInputError` at compile time under the hard-error
policy, and under the warning policy compilation succeeds with a nonempty
warning list — the condition is configurable as error or warning. -/
theorem unused_input_error_at_compile_time (g : List Node) (ins outs : List Nat) (d : Nat)
    (hd : d ∈ ins) (hunused : d ∉ used_ext_inputs g outs) :
    compile_function g ins outs .hardError = .error .unusedInputError ∧
      compile_function g ins outs .warnOnly =
        .ok (⟨g, ins, outs⟩, [ins.filter (fun d2 => decide (d2 ∉ used_ext_inputs g outs))]) ∧
      ins.filter (fun d2 => decide (d2 ∉ used_ext_inputs g outs)) ≠ [] := by
  have hmem : d ∈ ins.filter (fun d2 => decide (d2 ∉ used_ext_inputs g outs)) :=
    List.mem_filter.mpr ⟨hd, by simpa using hunused⟩
  have hne : ins.filter (fun d2 => decide (d2 ∉ used_ext_inputs g outs)) ≠ [] := by
    intro hnil
    rw [hnil] at hmem
    cases hmem
  have hemp : (ins.filter (fun d2 => decide (d2 ∉ used_ext_inputs g outs))).isEmpty = false := by
    cases hl : ins.filter (fun d2 => decide (d2 ∉ used_ext_inputs g outs)) with
    | nil => exact absurd hl hne
    | cons a l => rfl
  refine ⟨?_, ?_, hne⟩
  · unfold compile_function
    rw [hemp]
    rfl
  · unfold compile_function
    rw [hemp]
    rfl

/-- Witness for C9: declared input 1 is never read by the one-node graph
`gEx`, so compiling with the hard-error policy fails with
`UnusedInputError`. -/
theorem unused_input_error_at_compile_time_witness :
    (1 ∈ [0, 1] ∧ 1 ∉ used_ext_inputs gEx [0]) ∧
      compile_function gEx [0, 1] [0] .hardError = .error .unusedInputError :=
  ⟨⟨by decide, by decide⟩,
    (unused_input_error_at_compile_time gEx [0, 1] [0] 1 (by decide) (by decide)).1⟩

/-- C10: every public name the claim lists — the error classes, function
machinery, input/output descriptors, Mode machinery, registries and their
registration functions, MonitorMode, the copy and view operations,
ProfileStats, and the shared-value interface — is bound at the top level of
`pytensor.compile` by the package initializer. -/
theorem compile_package_reexports_public_names :
    c10_required_names.all (fun n => compile_exports.contains n) = true := by
  decide

end Pytensor
